import Mathlib

/-!
# PageRank estimation engine: verification of the core against its design

This development embeds the core of `pagerank.py` — the graph data model,
`transition_model`, `sample_pagerank` and `iterate_pagerank` — and settles
the design-level claims about them.

Modelling conventions:
* A Python dict over page names is embedded as an ordered key list
  (`Graph.nodes`, insertion order) together with a lookup function
  (`Graph.out`); the outlink set of a page is a `Finset`.
* Python floats are idealised as rationals (`ℚ`); the decimal literal
  `0.001` becomes `1/1000`, `0.85` becomes `17/20`.
* `raise` is embedded as the error branch of `Except`; `PRError` names
  each raise site of the source.
* The unbounded `while` loop of `iterate_pagerank` is run on explicit
  fuel (`Option` result, `none` = fuel exhausted).
* The pseudorandom source is an explicit input: an index for
  `random.choice`, and for each step a rational `u ∈ [0,1)` from which
  `random.choices` picks the first population element whose cumulative
  weight exceeds `u * totalWeight` (the documented relative-weight
  semantics of `random.choices`).
-/

namespace PageRank

/-- Page identifiers (opaque comparable tokens) are embedded as naturals. -/
abbrev Node := ℕ

/-- The raise sites of the source: `transition_model` raises `ValueError`
for a page absent from the corpus (line 63); `random.choice` on an empty
sequence raises `IndexError`; `random.choices` raises `ValueError` when the
total of the weights is not positive. -/
inductive PRError
  | unknownNode
  | emptySeq
  | zeroWeight
deriving DecidableEq, Repr

/-- The corpus dict: an ordered list of keys (Python dicts preserve
insertion order, and the estimators iterate over the keys in that order)
plus the outlink set of each key. -/
structure Graph where
  nodes : List Node
  out : Node → Finset Node

/-- `len(corpus)`. -/
def Graph.N (g : Graph) : ℕ := g.nodes.length

/-- The corpus invariants from the data model: keys are distinct (a dict)
and every outlink target is itself a key of the corpus. -/
def Graph.Valid (g : Graph) : Prop :=
  g.nodes.Nodup ∧ ∀ p ∈ g.nodes, ∀ q ∈ g.out p, q ∈ g.nodes

instance (g : Graph) : Decidable g.Valid := by
  unfold Graph.Valid; infer_instance

/-- The dict built by `transition_model` (lines 65-73), as a function on
pages: `links_prob = damping_factor / len(links) if links else 0`,
`random_prob = (1 - damping_factor) / len(corpus)`, and each page `p`
receives `links_prob + random_prob` if `p in links`, else `random_prob`. -/
def tmFun (corpus : Graph) (page : Node) (damping_factor : ℚ) : Node → ℚ :=
  fun p =>
    if p ∈ corpus.out page then
      (if (corpus.out page).Nonempty
        then damping_factor / ((corpus.out page).card : ℚ) else 0)
        + (1 - damping_factor) / (corpus.N : ℚ)
    else (1 - damping_factor) / (corpus.N : ℚ)

/-- `transition_model(corpus, page, damping_factor)` (lines 51-75): raises
`ValueError` when `page not in corpus`, otherwise returns the distribution
dict `tmFun`. -/
def transition_model (corpus : Graph) (page : Node) (damping_factor : ℚ) :
    Except PRError (Node → ℚ) :=
  if page ∈ corpus.nodes then .ok (tmFun corpus page damping_factor)
  else .error .unknownNode

/-- A two-page corpus `{0: set(), 1: {0}}`: page 0 is dangling. -/
def gDangle : Graph := ⟨[0, 1], fun p => if p = 1 then {0} else ∅⟩

/-- The same corpus mapping as `gDangle` but with the keys in the other
insertion order, `{1: {0}, 0: set()}`. -/
def gDangleRev : Graph := ⟨[1, 0], gDangle.out⟩

/-- A two-page corpus `{0: {1}, 1: {0}}` of two mutually linking pages. -/
def gMutual : Graph := ⟨[0, 1], fun p => if p = 0 then {1} else {0}⟩

/-- The one-page corpus `{0: set()}`: a single isolated dangling page. -/
def gSingle : Graph := ⟨[0], fun _ => ∅⟩

/-- The corpus with zero pages. -/
def emptyGraph : Graph := ⟨[], fun _ => ∅⟩

/-- The links actually used for page `p` by the inner loop of
`iterate_pagerank` (lines 132-134): `links = corpus[p]`, and
`if len(links) == 0: links = corpus.keys()`. -/
def effLinks (g : Graph) (p : Node) : Finset Node :=
  if g.out p = ∅ then g.nodes.toFinset else g.out p

/-- The body of the per-page update of `iterate_pagerank` (lines
126-140): `newRank = (1 - damping_factor) / len(corpus)` plus
`damping_factor` times the summation, over all pages `p` of the corpus,
of `pageRanks[p] / len(links)` whenever `page in links`. -/
def newRankOf (g : Graph) (d : ℚ) (r : Node → ℚ) (page : Node) : ℚ :=
  (1 - d) / (g.N : ℚ)
    + d * (g.nodes.map (fun p =>
        if page ∈ effLinks g p then r p / ((effLinks g p).card : ℚ) else 0)).sum

/-- One pass of the `while` loop of `iterate_pagerank` (lines 125-145)
over the given key order: for each page compute `newRank`, increment
`converged_count` when `newRank <= pageRanks[page] + 0.001 and
newRank >= pageRanks[page] - 0.001`, then assign
`pageRanks[page] = newRank` in place before moving to the next page. -/
def iterPass (g : Graph) (d : ℚ) : List Node → (Node → ℚ) × ℕ → (Node → ℚ) × ℕ
  | [], st => st
  | page :: rest, (r, cnt) =>
      iterPass g d rest
        (Function.update r page (newRankOf g d r page),
         if newRankOf g d r page ≤ r page + 1/1000
            ∧ r page - 1/1000 ≤ newRankOf g d r page
         then cnt + 1 else cnt)

/-- The `while not converged` loop of `iterate_pagerank` (lines 121-151),
run on fuel: after each pass, if `converged_count == len(corpus)` the rank
dict is returned, otherwise `converged_count` is reset to zero and the
whole key set is re-evaluated.  `none` means the fuel ran out. -/
def iterLoop (g : Graph) (d : ℚ) : ℕ → (Node → ℚ) × ℕ → Option (Node → ℚ)
  | 0, _ => none
  | fuel+1, st =>
      let st2 := iterPass g d g.nodes st
      if st2.2 = g.N then some st2.1 else iterLoop g d fuel (st2.1, 0)

/-- The initial rank dict of `iterate_pagerank` (lines 117-119):
every page starts at `1 / len(corpus)`. -/
def initRank (g : Graph) : Node → ℚ := fun _ => 1 / (g.N : ℚ)

/-- `iterate_pagerank(corpus, damping_factor)` (lines 108-153), as a
function on pages, starting from `initRank` with `converged_count = 0`. -/
def iterate_pagerank (g : Graph) (d : ℚ) (fuel : ℕ) : Option (Node → ℚ) :=
  iterLoop g d fuel (initRank g, 0)

/-- The rank dict returned by `iterate_pagerank`, as an association list
over the corpus keys in order. -/
def iterate_pagerank_ranks (g : Graph) (d : ℚ) (fuel : ℕ) :
    Option (List (Node × ℚ)) :=
  (iterate_pagerank g d fuel).map fun r => g.nodes.map fun p => (p, r p)

/-- The rank vector produced by one in-place update pass over the given
key order (ignoring the convergence counter). -/
def passVec (g : Graph) (d : ℚ) (order : List Node) (r : Node → ℚ) :
    Node → ℚ :=
  (iterPass g d order (r, 0)).1

/-- Whether, during one in-place pass over the given key order, every
page's newly computed rank differs from that page's rank at the start of
its comparison by at most `0.001`. -/
def passAll (g : Graph) (d : ℚ) : List Node → (Node → ℚ) → Bool
  | [], _ => true
  | page :: rest, r =>
      if |newRankOf g d r page - r page| ≤ 1/1000
      then passAll g d rest (Function.update r page (newRankOf g d r page))
      else false

/-- The pick of `random.choices(population, weights)` (line 97): the
pseudorandom source supplies `x = random() * totalWeight`, and the pick is
the first population element whose cumulative weight exceeds `x`.  `none`
models the `ValueError` raised when no element is reached (in particular
when the total of the weights is not positive). -/
def choiceFrom : List (Node × ℚ) → ℚ → Option Node
  | [], _ => none
  | (p, w) :: rest, x => if x < w then some p else choiceFrom rest (x - w)

/-- One step of the sampling chain (lines 96-98): build the transition
model at the current page, then draw the next page from
`random.choices(list(tm.keys()), tm.values())`, where `u ∈ [0,1)` is the
step's pseudorandom number. -/
def sample_step (g : Graph) (d : ℚ) (cur : Node) (u : ℚ) :
    Except PRError Node :=
  match transition_model g cur d with
  | .error e => .error e
  | .ok tm =>
      match choiceFrom (g.nodes.map fun p => (p, tm p))
          (u * (g.nodes.map tm).sum) with
      | some nxt => .ok nxt
      | none => .error .zeroWeight

/-- The `for i in range(n - 1)` loop of `sample_pagerank` (lines 95-99):
at index `i` with `steps` draws remaining, draw the next page, increment
its counter in place, and continue from it. -/
def sampleLoop (g : Graph) (d : ℚ) (u : ℕ → ℚ) :
    ℕ → ℕ → Node → (Node → ℕ) → Except PRError ((Node → ℕ) × Node)
  | _, 0, cur, cnt => .ok (cnt, cur)
  | i, steps+1, cur, cnt =>
      match sample_step g d cur (u i) with
      | .error e => .error e
      | .ok nxt => sampleLoop g d u (i+1) steps nxt
          (Function.update cnt nxt (cnt nxt + 1))

/-- `sample_pagerank(corpus, damping_factor, n)` (lines 79-105): zero
every counter, pick the start page `random.choice(list(corpus.keys()))`
(embedded as the key at the pseudorandom index `k`; `IndexError` when the
key list is empty), count it, run the `n - 1` sampling steps, and return
each page's counter divided by `n`. -/
def sample_pagerank (g : Graph) (d : ℚ) (n : ℕ) (k : ℕ) (u : ℕ → ℚ) :
    Except PRError (List (Node × ℚ)) :=
  match g.nodes[k]? with
  | none => .error .emptySeq
  | some start =>
      match sampleLoop g d u 0 (n - 1) start
          (Function.update (fun _ => 0) start 1) with
      | .error e => .error e
      | .ok (cnt, _) => .ok (g.nodes.map fun p => (p, ((cnt p : ℚ) / (n : ℚ))))

/-- The per-step next-page distribution induced by the weighted draw at
line 97: `random.choices` treats its weights as relative, so page `p` is
drawn with probability `weight(p) / totalWeight`. -/
def samplerStepDist (g : Graph) (d : ℚ) (cur : Node) : Node → ℚ :=
  fun p => tmFun g cur d p / (g.nodes.map (tmFun g cur d)).sum

end PageRank

namespace PageRank

/-- Over the corpus keys, the values of the `transition_model` dict sum to
1 when the page has outlinks, but only to `1 - d` when it is dangling. -/
theorem tmFun_sum (g : Graph) (page : Node) (d : ℚ)
    (hv : g.Valid) (hp : page ∈ g.nodes) :
    (g.nodes.map (tmFun g page d)).sum
      = if (g.out page).Nonempty then 1 else 1 - d := by
  obtain ⟨hnd, hcl⟩ := hv
  have hsub : g.out page ⊆ g.nodes.toFinset := fun q hq =>
    List.mem_toFinset.mpr (hcl page hp q hq)
  have hNnat : g.N ≠ 0 := by
    have h0 := List.ne_nil_of_mem hp
    simp [Graph.N, List.length_eq_zero, h0]
  have hN0 : (g.N : ℚ) ≠ 0 := Nat.cast_ne_zero.mpr hNnat
  have hcard : g.nodes.toFinset.card = g.N :=
    List.toFinset_card_of_nodup hnd
  have key : ∀ p, tmFun g page d p
      = (if p ∈ g.out page then
          (if (g.out page).Nonempty then d / ((g.out page).card : ℚ) else 0)
         else 0)
        + (1 - d) / (g.N : ℚ) := by
    intro p
    by_cases h : p ∈ g.out page <;> simp [tmFun, h]
  rw [← List.sum_toFinset _ hnd, Finset.sum_congr rfl fun p _ => key p,
    Finset.sum_add_distrib, Finset.sum_const, Finset.sum_ite_mem,
    Finset.inter_eq_right.mpr hsub, Finset.sum_const, hcard]
  by_cases hL : (g.out page).Nonempty
  · have hc0 : ((g.out page).card : ℚ) ≠ 0 :=
      Nat.cast_ne_zero.mpr (Finset.card_pos.mpr hL).ne.symm
    rw [if_pos hL, if_pos hL]
    rw [nsmul_eq_mul, nsmul_eq_mul]
    field_simp
  · rw [if_neg hL, if_neg hL]
    rw [nsmul_eq_mul, nsmul_eq_mul]
    field_simp

/-- Claim C3: at a page whose outlink set `L` is non-empty,
`transition_model` assigns `d/|L| + (1-d)/N` to every page in `L` and
`(1-d)/N` to every other page of the corpus, and the returned values sum
to exactly 1. -/
theorem transition_model_nonempty_links_spec (g : Graph) (page : Node)
    (d : ℚ) (hv : g.Valid) (hp : page ∈ g.nodes)
    (hL : (g.out page).Nonempty) (hd0 : 0 < d) (hd1 : d < 1) :
    transition_model g page d = .ok (tmFun g page d)
    ∧ (∀ p ∈ g.out page,
        tmFun g page d p
          = d / ((g.out page).card : ℚ) + (1 - d) / (g.N : ℚ))
    ∧ (∀ p ∈ g.nodes, p ∉ g.out page →
        tmFun g page d p = (1 - d) / (g.N : ℚ))
    ∧ (g.nodes.map (tmFun g page d)).sum = 1 := by
  refine ⟨by simp [transition_model, hp],
    fun p hpL => by simp [tmFun, hpL, hL],
    fun p _ hpL => by simp [tmFun, hpL],
    ?_⟩
  rw [tmFun_sum g page d ⟨hv.1, hv.2⟩ hp, if_pos hL]

/-- Witness for C3 at the two-page mutually linking corpus with damping
0.85. -/
theorem transition_model_nonempty_links_spec_witness :
    transition_model gMutual 0 (17/20) = .ok (tmFun gMutual 0 (17/20))
    ∧ (∀ p ∈ gMutual.out 0,
        tmFun gMutual 0 (17/20) p
          = (17/20) / ((gMutual.out 0).card : ℚ) + (1 - 17/20) / (gMutual.N : ℚ))
    ∧ (∀ p ∈ gMutual.nodes, p ∉ gMutual.out 0 →
        tmFun gMutual 0 (17/20) p = (1 - 17/20) / (gMutual.N : ℚ))
    ∧ (gMutual.nodes.map (tmFun gMutual 0 (17/20))).sum = 1 :=
  transition_model_nonempty_links_spec gMutual 0 (17/20)
    (by decide) (by decide) (by decide) (by norm_num) (by norm_num)

/-- Claim C7: for a page that is not a key of the corpus,
`transition_model` fails with the unknown-node error (the `ValueError`
raise at line 63) before building any distribution; it never silently
substitutes a default or returns a value. -/
theorem transition_model_unknown_node (g : Graph) (page : Node) (d : ℚ)
    (h : page ∉ g.nodes) :
    transition_model g page d = .error .unknownNode := by
  simp [transition_model, h]

/-- Witness for C7: the two-page corpus has no page 5, and the transition
model fails with the unknown-node error there. -/
theorem transition_model_unknown_node_witness :
    (5 : Node) ∉ gMutual.nodes ∧
      transition_model gMutual 5 (17/20) = .error .unknownNode :=
  ⟨by decide, transition_model_unknown_node gMutual 5 (17/20) (by decide)⟩

/-- Claim C1 (code bug): at the dangling page 0 of `gDangle` with damping
factor 0.85, `transition_model` does NOT treat the page as linking
uniformly to every page: both pages receive only the baseline
`(1-d)/N = 3/40`, not `1/N = 1/2`, and the returned values sum to
`1 - d = 3/20`, not 1 — the damping mass is dropped (policy (b), the
flagged correctness trap). -/
theorem transition_model_dangling_drops_mass :
    transition_model gDangle 0 (17/20) = .ok (tmFun gDangle 0 (17/20)) ∧
      tmFun gDangle 0 (17/20) 0 = 3/40 ∧
      tmFun gDangle 0 (17/20) 1 = 3/40 ∧
      (gDangle.nodes.map (tmFun gDangle 0 (17/20))).sum = 3/20 ∧
      (gDangle.nodes.map (tmFun gDangle 0 (17/20))).sum ≠ 1 := by
  refine ⟨by simp [transition_model, gDangle], ?_, ?_, ?_, ?_⟩ <;>
    · simp [tmFun, gDangle, Graph.N]
      try norm_num

/-- Claim C10: at a dangling page, even though the raw `transition_model`
values sum only to `1 - d`, the effective next-page distribution of the
sampler's weighted draw — the weights normalized by their total, which is
how `random.choices` treats them — is the uniform distribution `1/N` over
all pages of the corpus. -/
theorem sampler_step_dist_uniform_on_dangling (g : Graph) (cur : Node)
    (d : ℚ) (hv : g.Valid) (hcur : cur ∈ g.nodes)
    (hdang : g.out cur = ∅) (hd1 : d < 1) :
    (g.nodes.map (tmFun g cur d)).sum = 1 - d
    ∧ ∀ p ∈ g.nodes, samplerStepDist g d cur p = 1 / (g.N : ℚ) := by
  have hsum : (g.nodes.map (tmFun g cur d)).sum = 1 - d := by
    rw [tmFun_sum g cur d hv hcur, hdang]
    simp
  refine ⟨hsum, fun p _ => ?_⟩
  have hval : tmFun g cur d p = (1 - d) / (g.N : ℚ) := by
    simp [tmFun, hdang]
  have h1d : (1 : ℚ) - d ≠ 0 := sub_ne_zero.mpr (by linarith)
  simp only [samplerStepDist, hval, hsum]
  rw [div_div, mul_comm ((g.N : ℚ)) (1 - d), ← div_div, div_self h1d]

/-- Witness for C10 at the dangling page 0 of the two-page corpus with
damping 0.85. -/
theorem sampler_step_dist_uniform_on_dangling_witness :
    (gDangle.nodes.map (tmFun gDangle 0 (17/20))).sum = 1 - 17/20
    ∧ ∀ p ∈ gDangle.nodes,
        samplerStepDist gDangle (17/20) 0 p = 1 / (gDangle.N : ℚ) :=
  sampler_step_dist_uniform_on_dangling gDangle 0 (17/20)
    (by decide) (by decide) (by decide) (by norm_num)

/-- A successful weighted pick is an element of the population list. -/
theorem choiceFrom_mem :
    ∀ (l : List (Node × ℚ)) (x : ℚ) (p : Node),
      choiceFrom l x = some p → p ∈ l.map Prod.fst := by
  intro l
  induction l with
  | nil => intro x p h; simp [choiceFrom] at h
  | cons hd tl ih =>
      intro x p h
      obtain ⟨q, w⟩ := hd
      by_cases hx : x < w
      · simp [choiceFrom, hx] at h
        simp [h]
      · simp only [choiceFrom, if_neg hx] at h
        exact List.mem_cons.mpr (Or.inr (ih _ _ h))

/-- The weighted pick succeeds whenever the target lies strictly below
the total weight. -/
theorem choiceFrom_isSome :
    ∀ (l : List (Node × ℚ)) (x : ℚ), 0 ≤ x → x < (l.map Prod.snd).sum →
      ∃ p, choiceFrom l x = some p := by
  intro l
  induction l with
  | nil => intro x hx0 hxlt; simp at hxlt; exact absurd (lt_of_le_of_lt hx0 hxlt) (lt_irrefl 0)
  | cons hd tl ih =>
      intro x hx0 hxlt
      obtain ⟨q, w⟩ := hd
      by_cases hx : x < w
      · exact ⟨q, by simp [choiceFrom, hx]⟩
      · have hw : w ≤ x := le_of_not_lt hx
        simp only [List.map_cons, List.sum_cons] at hxlt
        obtain ⟨p, hp⟩ := ih (x - w) (by linarith) (by linarith)
        exact ⟨p, by simp [choiceFrom, hx, hp]⟩

/-- Under a valid corpus, a damping factor in `(0,1)` and a pseudorandom
number in `[0,1)`, one sampling step succeeds and lands on a corpus
key. -/
theorem sample_step_ok (g : Graph) (d : ℚ) (cur : Node) (u : ℚ)
    (hv : g.Valid) (hcur : cur ∈ g.nodes) (hd0 : 0 < d) (hd1 : d < 1)
    (hu0 : 0 ≤ u) (hu1 : u < 1) :
    ∃ nxt, sample_step g d cur u = .ok nxt ∧ nxt ∈ g.nodes := by
  have htm : transition_model g cur d = .ok (tmFun g cur d) := by
    simp [transition_model, hcur]
  have hsum : 0 < (g.nodes.map (tmFun g cur d)).sum := by
    rw [tmFun_sum g cur d hv hcur]
    by_cases hL : (g.out cur).Nonempty <;> simp [hL] <;> linarith
  have hx0 : 0 ≤ u * (g.nodes.map (tmFun g cur d)).sum :=
    mul_nonneg hu0 hsum.le
  have hxlt : u * (g.nodes.map (tmFun g cur d)).sum
      < (g.nodes.map (tmFun g cur d)).sum :=
    mul_lt_of_lt_one_left hsum hu1
  have hsnd : ((g.nodes.map fun p => (p, tmFun g cur d p)).map Prod.snd)
      = g.nodes.map (tmFun g cur d) := by
    simp [List.map_map, Function.comp_def]
  have hfst : ((g.nodes.map fun p => (p, tmFun g cur d p)).map Prod.fst)
      = g.nodes := by
    simp [List.map_map, Function.comp_def]
  obtain ⟨nxt, hc⟩ := choiceFrom_isSome (g.nodes.map fun p => (p, tmFun g cur d p))
    (u * (g.nodes.map (tmFun g cur d)).sum) hx0 (by rw [hsnd]; exact hxlt)
  have hmem := choiceFrom_mem _ _ _ hc
  rw [hfst] at hmem
  refine ⟨nxt, ?_, hmem⟩
  simp [sample_step, htm, hc]

/-- Under the same conditions, the sampling loop succeeds, every visited
page is a corpus key, and each draw adds exactly one to the total of the
visitation counters over the corpus keys. -/
theorem sampleLoop_ok (g : Graph) (d : ℚ) (u : ℕ → ℚ)
    (hv : g.Valid) (hd0 : 0 < d) (hd1 : d < 1)
    (hu : ∀ i, 0 ≤ u i ∧ u i < 1) :
    ∀ (steps i : ℕ) (cur : Node) (cnt : Node → ℕ), cur ∈ g.nodes →
      ∃ cnt2 cur2, sampleLoop g d u i steps cur cnt = .ok (cnt2, cur2)
        ∧ cur2 ∈ g.nodes
        ∧ g.nodes.toFinset.sum cnt2 = g.nodes.toFinset.sum cnt + steps := by
  intro steps
  induction steps with
  | zero => intro i cur cnt hcur; exact ⟨cnt, cur, rfl, hcur, by simp⟩
  | succ m ih =>
      intro i cur cnt hcur
      obtain ⟨nxt, hstep, hnxt⟩ :=
        sample_step_ok g d cur (u i) hv hcur hd0 hd1 (hu i).1 (hu i).2
      obtain ⟨cnt2, cur2, hloop, hcur2, hsum⟩ :=
        ih (i+1) nxt (Function.update cnt nxt (cnt nxt + 1)) hnxt
      refine ⟨cnt2, cur2, ?_, hcur2, ?_⟩
      · simp [sampleLoop, hstep, hloop]
      · rw [hsum]
        have hmem : nxt ∈ g.nodes.toFinset := List.mem_toFinset.mpr hnxt
        rw [Finset.sum_update_of_mem hmem, Finset.sdiff_singleton_eq_erase,
          ← Finset.add_sum_erase _ cnt hmem]
        omega

/-- Claim C6: for a valid non-empty corpus, damping factor in `(0,1)`
and sample count `n ≥ 1`, `sample_pagerank` returns one value per corpus
key, each a non-negative integer count divided by `n`, and the values sum
to exactly 1 (the visitation counters total `n`). -/
theorem sample_pagerank_counts_sum_one (g : Graph) (d : ℚ) (n k : ℕ)
    (u : ℕ → ℚ) (hv : g.Valid) (hk : k < g.nodes.length)
    (hd0 : 0 < d) (hd1 : d < 1) (hn : 1 ≤ n)
    (hu : ∀ i, 0 ≤ u i ∧ u i < 1) :
    ∃ cnt : Node → ℕ,
      sample_pagerank g d n k u
          = .ok (g.nodes.map fun p => (p, ((cnt p : ℚ) / (n : ℚ))))
      ∧ g.nodes.toFinset.sum cnt = n
      ∧ (∀ pr ∈ g.nodes.map fun p => (p, ((cnt p : ℚ) / (n : ℚ))),
          0 ≤ pr.2 ∧ ∃ c : ℕ, pr.2 = (c : ℚ) / (n : ℚ))
      ∧ ((g.nodes.map fun p => (p, ((cnt p : ℚ) / (n : ℚ)))).map Prod.snd).sum
          = 1 := by
  have hget : g.nodes[k]? = some g.nodes[k] := List.getElem?_eq_getElem hk
  have hstart : g.nodes[k] ∈ g.nodes := List.getElem_mem hk
  obtain ⟨cnt2, cur2, hloop, _, hsum⟩ :=
    sampleLoop_ok g d u hv hd0 hd1 hu (n - 1) 0 g.nodes[k]
      (Function.update (fun _ => 0) g.nodes[k] 1) hstart
  have hinit : g.nodes.toFinset.sum
      (Function.update (fun _ => (0:ℕ)) g.nodes[k] 1) = 1 := by
    rw [Finset.sum_update_of_mem (List.mem_toFinset.mpr hstart)]
    simp
  have htot : g.nodes.toFinset.sum cnt2 = n := by
    rw [hsum, hinit]; omega
  have hn0 : ((n : ℚ)) ≠ 0 := Nat.cast_ne_zero.mpr (by omega)
  refine ⟨cnt2, ?_, htot, ?_, ?_⟩
  · simp [sample_pagerank, hget, hloop]
  · intro pr hpr
    simp only [List.mem_map] at hpr
    obtain ⟨p, _, rfl⟩ := hpr
    exact ⟨by positivity, cnt2 p, rfl⟩
  · rw [List.map_map]
    have hcomp : (Prod.snd ∘ fun p => (p, ((cnt2 p : ℚ) / (n : ℚ))))
        = fun p => ((cnt2 p : ℚ) / (n : ℚ)) := rfl
    rw [hcomp, ← List.sum_toFinset _ hv.1, ← Finset.sum_div, ← Nat.cast_sum,
      htot, div_self hn0]

/-- Witness for C6 on the two-page mutually linking corpus, three
samples, damping 1/2, the pseudorandom stream constantly 0. -/
theorem sample_pagerank_counts_sum_one_witness :
    ∃ cnt : Node → ℕ,
      sample_pagerank gMutual (1/2) 3 0 (fun _ => 0)
          = .ok (gMutual.nodes.map fun p => (p, ((cnt p : ℚ) / ((3:ℕ) : ℚ))))
      ∧ gMutual.nodes.toFinset.sum cnt = 3
      ∧ (∀ pr ∈ gMutual.nodes.map fun p => (p, ((cnt p : ℚ) / ((3:ℕ) : ℚ))),
          0 ≤ pr.2 ∧ ∃ c : ℕ, pr.2 = (c : ℚ) / ((3:ℕ) : ℚ))
      ∧ ((gMutual.nodes.map fun p => (p, ((cnt p : ℚ) / ((3:ℕ) : ℚ)))).map
            Prod.snd).sum = 1 :=
  sample_pagerank_counts_sum_one gMutual (1/2) 3 0 (fun _ => 0)
    (by decide) (by decide) (by norm_num) (by norm_num) (by norm_num)
    (fun i => by norm_num)

/-- On the one-page corpus every draw lands back on page 0, so the
sampling loop adds exactly one visit to page 0 per step. -/
theorem sampleLoop_single (d : ℚ) (u : ℕ → ℚ)
    (hd1 : d < 1) (hu1 : ∀ i, u i < 1) :
    ∀ (steps i : ℕ) (cnt : Node → ℕ),
      ∃ cnt2, sampleLoop gSingle d u i steps 0 cnt = .ok (cnt2, 0)
        ∧ cnt2 0 = cnt 0 + steps := by
  intro steps
  induction steps with
  | zero => intro i cnt; exact ⟨cnt, rfl, by simp⟩
  | succ m ih =>
      intro i cnt
      have hcond : u i * (1 - d) < 1 - d :=
        mul_lt_of_lt_one_left (by linarith) (hu1 i)
      have hstep : sample_step gSingle d 0 (u i) = .ok 0 := by
        simp [sample_step, transition_model, gSingle, tmFun, Graph.N,
          choiceFrom, hcond]
      obtain ⟨cnt2, hl, hc⟩ := ih (i+1) (Function.update cnt 0 (cnt 0 + 1))
      refine ⟨cnt2, by simp [sampleLoop, hstep, hl], ?_⟩
      rw [hc]
      simp
      omega

/-- Claim C9: on the one-page corpus whose single page is dangling, both
estimators return rank exactly 1 for that page — no error, no
under-normalized value: the sampler visits page 0 all `n` times, and the
iterative solver converges on its first pass with rank 1. -/
theorem singleton_dangling_rank_one (d : ℚ) (n : ℕ) (u : ℕ → ℚ)
    (fuel : ℕ) (hd0 : 0 < d) (hd1 : d < 1) (hn : 1 ≤ n)
    (hu1 : ∀ i, u i < 1) :
    sample_pagerank gSingle d n 0 u = .ok [(0, 1)]
    ∧ iterate_pagerank_ranks gSingle d (fuel + 1) = some [(0, 1)] := by
  constructor
  · obtain ⟨cnt2, hl, hc⟩ := sampleLoop_single d u hd1 hu1 (n - 1) 0
      (Function.update (fun _ => 0) 0 1)
    have hcnt : cnt2 0 = n := by
      rw [hc]
      simp
      omega
    have hn0 : ((n : ℚ)) ≠ 0 := Nat.cast_ne_zero.mpr (by omega)
    have hget : gSingle.nodes[(0:ℕ)]? = some 0 := rfl
    simp only [sample_pagerank, hget, hl]
    simp [gSingle, hcnt, div_self hn0]
  · have hr0 : initRank gSingle 0 = 1 := by
      norm_num [initRank, gSingle, Graph.N]
    have hnew : newRankOf gSingle d (initRank gSingle) 0 = 1 := by
      simp [newRankOf, effLinks, gSingle, Graph.N, initRank]
    have hcond : newRankOf gSingle d (initRank gSingle) 0
          ≤ initRank gSingle 0 + 1/1000
        ∧ initRank gSingle 0 - 1/1000
          ≤ newRankOf gSingle d (initRank gSingle) 0 := by
      rw [hnew, hr0]
      norm_num
    have hpass : iterPass gSingle d gSingle.nodes (initRank gSingle, 0)
        = (Function.update (initRank gSingle) 0
            (newRankOf gSingle d (initRank gSingle) 0), 1) := by
      simp only [show gSingle.nodes = [0] from rfl, iterPass, if_pos hcond,
        Nat.zero_add]
    have hN : gSingle.N = 1 := rfl
    simp only [iterate_pagerank_ranks, iterate_pagerank, iterLoop, hpass, hN,
      if_pos rfl]
    simp [show gSingle.nodes = [0] from rfl, hnew]

/-- Witness for C9 with damping 1/2, three samples, the zero pseudorandom
stream, and one unit of fuel. -/
theorem singleton_dangling_rank_one_witness :
    sample_pagerank gSingle (1/2) 3 0 (fun _ => 0) = .ok [(0, 1)]
    ∧ iterate_pagerank_ranks gSingle (1/2) (0 + 1) = some [(0, 1)] :=
  singleton_dangling_rank_one (1/2) 3 (fun _ => 0) 0
    (by norm_num) (by norm_num) (by norm_num) (fun i => by norm_num)

/-- Claim C4: the per-page update computed by the inner loop of
`iterate_pagerank` equals `(1-d)/N + d * ( Σ_{q linking to page}
rank(q)/outDegree(q) + Σ_{q dangling} rank(q)/N )` — a dangling page `q`
is treated as linking to every page and contributes `rank(q)/N` — and the
rank vector handed to the first pass assigns `1/N` to every page. -/
theorem iterate_update_formula (g : Graph) (d : ℚ) (r : Node → ℚ)
    (page : Node) (fuel : ℕ) (hv : g.Valid) (hp : page ∈ g.nodes) :
    newRankOf g d r page
      = (1 - d) / (g.N : ℚ)
        + d * (((g.nodes.toFinset.filter fun q => page ∈ g.out q).sum
                  fun q => r q / ((g.out q).card : ℚ))
             + ((g.nodes.toFinset.filter fun q => g.out q = ∅).sum
                  fun q => r q / (g.N : ℚ)))
    ∧ initRank g page = 1 / (g.N : ℚ)
    ∧ iterate_pagerank g d fuel = iterLoop g d fuel (initRank g, 0) := by
  refine ⟨?_, rfl, rfl⟩
  obtain ⟨hnd, hcl⟩ := hv
  have hps : page ∈ g.nodes.toFinset := List.mem_toFinset.mpr hp
  have hcard : g.nodes.toFinset.card = g.N := List.toFinset_card_of_nodup hnd
  have hsplit : ∀ q ∈ g.nodes.toFinset,
      (if page ∈ effLinks g q then r q / ((effLinks g q).card : ℚ) else 0)
        = (if page ∈ g.out q then r q / ((g.out q).card : ℚ) else 0)
          + (if g.out q = ∅ then r q / (g.N : ℚ) else 0) := by
    intro q _
    by_cases hdq : g.out q = ∅
    · simp [effLinks, hdq, hps, hcard]
    · simp [effLinks, hdq]
  rw [newRankOf, ← List.sum_toFinset _ hnd,
    Finset.sum_congr rfl hsplit, Finset.sum_add_distrib,
    Finset.sum_filter, Finset.sum_filter]

/-- Witness for C4 at page 0 of the dangling two-page corpus, an
arbitrary concrete rank vector, damping 0.85 and fuel 7. -/
theorem iterate_update_formula_witness :
    newRankOf gDangle (17/20) (fun p => if p = 0 then 2/5 else 3/5) 0
      = (1 - 17/20) / (gDangle.N : ℚ)
        + (17/20) * (((gDangle.nodes.toFinset.filter
                fun q => 0 ∈ gDangle.out q).sum
              fun q => (fun p => if p = 0 then (2:ℚ)/5 else 3/5) q
                / ((gDangle.out q).card : ℚ))
           + ((gDangle.nodes.toFinset.filter fun q => gDangle.out q = ∅).sum
              fun q => (fun p => if p = 0 then (2:ℚ)/5 else 3/5) q
                / (gDangle.N : ℚ)))
    ∧ initRank gDangle 0 = 1 / (gDangle.N : ℚ)
    ∧ iterate_pagerank gDangle (17/20) 7
        = iterLoop gDangle (17/20) 7 (initRank gDangle, 0) :=
  iterate_update_formula gDangle (17/20)
    (fun p => if p = 0 then 2/5 else 3/5) 0 7 (by decide) (by decide)

/-- The convergence counter gains at most one per page of a pass. -/
theorem iterPass_cnt_le (g : Graph) (d : ℚ) :
    ∀ (l : List Node) (r : Node → ℚ) (c : ℕ),
      (iterPass g d l (r, c)).2 ≤ c + l.length := by
  intro l
  induction l with
  | nil => intro r c; simp [iterPass]
  | cons page rest ih =>
      intro r c
      simp only [iterPass, List.length_cons]
      by_cases hc : newRankOf g d r page ≤ r page + 1/1000
          ∧ r page - 1/1000 ≤ newRankOf g d r page
      · rw [if_pos hc]
        have := ih (Function.update r page (newRankOf g d r page)) (c+1)
        omega
      · rw [if_neg hc]
        have := ih (Function.update r page (newRankOf g d r page)) c
        omega

/-- The counter check of `iterate_pagerank` is equivalent to the design's
all-pages predicate: starting from `c`, the counter ends the pass at
exactly `c + length` iff every page of the pass satisfied the
per-page tolerance test against its rank at comparison time. -/
theorem iterPass_cnt_eq_iff (g : Graph) (d : ℚ) :
    ∀ (l : List Node) (r : Node → ℚ) (c : ℕ),
      ((iterPass g d l (r, c)).2 = c + l.length)
        ↔ passAll g d l r = true := by
  intro l
  induction l with
  | nil => intro r c; simp [iterPass, passAll]
  | cons page rest ih =>
      intro r c
      simp only [iterPass, passAll, List.length_cons]
      by_cases hc : newRankOf g d r page ≤ r page + 1/1000
          ∧ r page - 1/1000 ≤ newRankOf g d r page
      · rw [if_pos hc]
        have habs : |newRankOf g d r page - r page| ≤ 1/1000 :=
          abs_le.mpr ⟨by linarith [hc.2], by linarith [hc.1]⟩
        rw [if_pos habs,
          show c + (rest.length + 1) = (c + 1) + rest.length from by omega]
        exact ih (Function.update r page (newRankOf g d r page)) (c+1)
      · rw [if_neg hc]
        have habs : ¬ |newRankOf g d r page - r page| ≤ 1/1000 := by
          intro habs
          rw [abs_le] at habs
          exact hc ⟨by linarith [habs.2], by linarith [habs.1]⟩
        rw [if_neg habs]
        constructor
        · intro h
          have := iterPass_cnt_le g d rest
            (Function.update r page (newRankOf g d r page)) c
          omega
        · intro h
          cases h

/-- Claim C5: the loop of `iterate_pagerank` returns after a pass exactly
when every page's newly computed rank differed from that page's rank at
the start of its comparison by at most 0.001 in that same pass (the
counter reaching `len(corpus)` is equivalent to the all-pages test); when
any page fails the test, the loop instead re-evaluates the full key set
with the convergence counter reset to zero, never decremented or carried
over. -/
theorem iterate_converged_iff_pass_stable (g : Graph) (d : ℚ) (fuel : ℕ)
    (r : Node → ℚ) :
    iterLoop g d (fuel + 1) (r, 0)
      = if passAll g d g.nodes r then some (passVec g d g.nodes r)
        else iterLoop g d fuel (passVec g d g.nodes r, 0) := by
  have hiff : ((iterPass g d g.nodes (r, 0)).2 = g.N)
      ↔ passAll g d g.nodes r = true := by
    have h0 := iterPass_cnt_eq_iff g d g.nodes r 0
    simpa [Graph.N] using h0
  simp only [iterLoop]
  by_cases hall : passAll g d g.nodes r = true
  · rw [if_pos (show (iterPass g d g.nodes (r, 0)).2 = g.N from hiff.mpr hall),
      if_pos hall]
    rfl
  · rw [if_neg (fun h => hall (hiff.mp h)), if_neg hall]
    rfl

/-- Running a pass over a concatenation runs it over the pieces in
sequence, threading the in-place state. -/
theorem iterPass_append (g : Graph) (d : ℚ) :
    ∀ (l1 l2 : List Node) (st : (Node → ℚ) × ℕ),
      iterPass g d (l1 ++ l2) st = iterPass g d l2 (iterPass g d l1 st) := by
  intro l1
  induction l1 with
  | nil => intro l2 st; rfl
  | cons page rest ih =>
      intro l2 st
      obtain ⟨r, c⟩ := st
      simp only [List.cons_append, iterPass]
      exact ih l2 _

/-- The rank vector produced by a pass does not depend on the incoming
value of the convergence counter. -/
theorem iterPass_fst_eq (g : Graph) (d : ℚ) :
    ∀ (l : List Node) (r : Node → ℚ) (c c2 : ℕ),
      (iterPass g d l (r, c)).1 = (iterPass g d l (r, c2)).1 := by
  intro l
  induction l with
  | nil => intro r c c2; rfl
  | cons page rest ih =>
      intro r c c2
      simp only [iterPass]
      exact ih _ _ _

/-- A page not visited by a pass keeps its incoming rank. -/
theorem iterPass_untouched (g : Graph) (d : ℚ) :
    ∀ (l : List Node) (r : Node → ℚ) (c : ℕ) (q : Node), q ∉ l →
      (iterPass g d l (r, c)).1 q = r q := by
  intro l
  induction l with
  | nil => intro r c q _; rfl
  | cons page rest ih =>
      intro r c q h
      simp only [iterPass]
      rw [ih _ _ q (fun hm => h (List.mem_cons.mpr (Or.inr hm)))]
      exact Function.update_noteq
        (fun hq => h (List.mem_cons.mpr (Or.inl hq))) _ _

/-- A pass over `l1 ++ l2` is a pass over `l2` started from the vector
left by the pass over `l1`. -/
theorem passVec_append (g : Graph) (d : ℚ) (l1 l2 : List Node)
    (r : Node → ℚ) :
    passVec g d (l1 ++ l2) r = passVec g d l2 (passVec g d l1 r) := by
  unfold passVec
  rw [iterPass_append]
  rcases hst : iterPass g d l1 (r, 0) with ⟨r1, c1⟩
  exact iterPass_fst_eq g d l2 r1 c1 0

/-- Claim C2 (amended): the update pass of `iterate_pagerank` works in
place: the rank it assigns to a page is computed from the vector holding
all the updates already made earlier in the same pass (Gauss–Seidel), not
from the previous iteration's full rank vector. -/
theorem iterate_pass_uses_updated_values (g : Graph) (d : ℚ)
    (r : Node → ℚ) (l1 : List Node) (page : Node) (l2 : List Node)
    (hnot : page ∉ l2) :
    passVec g d (l1 ++ page :: l2) r page
      = newRankOf g d (passVec g d l1 r) page := by
  rw [passVec_append g d l1 (page :: l2) r]
  unfold passVec
  simp only [iterPass]
  rw [iterPass_untouched g d l2 _ _ page hnot]
  exact Function.update_same page _ _

/-- Witness for the amended C2: in the first pass over the dangling
two-page corpus, the rank assigned to page 1 is `newRankOf` applied to
the vector left after page 0's in-place update. -/
theorem iterate_pass_uses_updated_values_witness :
    passVec gDangle (1/10) ([0] ++ 1 :: []) (initRank gDangle) 1
      = newRankOf gDangle (1/10)
          (passVec gDangle (1/10) [0] (initRank gDangle)) 1 :=
  iterate_pass_uses_updated_values gDangle (1/10) (initRank gDangle)
    [0] 1 [] (by simp)

/-- Claim C2 counterexample: on the dangling two-page corpus with damping
1/10, (i) the rank the first pass assigns to page 1 is NOT the value
computed from the previous iteration's full rank vector, and (ii) the two
corpora `gDangle` and `gDangleRev` — the same key set and the same
outlink mapping, differing only in dict insertion order, hence only in
the order the pass evaluates pages — make `iterate_pagerank` return
different converged ranks for page 0. -/
theorem iterate_order_dependent :
    gDangle.nodes.toFinset = gDangleRev.nodes.toFinset
    ∧ gDangle.out = gDangleRev.out
    ∧ passVec gDangle (1/10) gDangle.nodes (initRank gDangle) 1
        ≠ newRankOf gDangle (1/10) (initRank gDangle) 1
    ∧ Option.map (List.lookup 0) (iterate_pagerank_ranks gDangle (1/10) 6)
        ≠ Option.map (List.lookup 0)
            (iterate_pagerank_ranks gDangleRev (1/10) 6) := by
  refine ⟨by decide, rfl, ?_, ?_⟩
  · norm_num [passVec, iterPass, newRankOf, effLinks, initRank, gDangle,
      Graph.N, Function.update_apply]
  · norm_num [iterate_pagerank_ranks, iterate_pagerank, iterLoop, iterPass,
      newRankOf, effLinks, initRank, gDangle, gDangleRev, Graph.N,
      Function.update_apply, List.lookup,
      show ((0:ℕ) == 1) = false from rfl, show ((0:ℕ) == 0) = true from rfl]

/-- Claim C8 (amended): on the corpus with zero pages, `sample_pagerank`
fails before producing any rank dict — but with the `IndexError` of
`random.choice` on an empty sequence, not a dedicated empty-graph error —
while `iterate_pagerank` does not fail at all: its convergence check
`converged_count == len(corpus)` passes vacuously on the first pass and
it returns the empty rank dict. -/
theorem empty_graph_behavior (d : ℚ) (n k : ℕ) (u : ℕ → ℚ) (fuel : ℕ) :
    sample_pagerank emptyGraph d n k u = .error .emptySeq
    ∧ iterate_pagerank_ranks emptyGraph d (fuel + 1) = some [] := by
  constructor
  · simp [sample_pagerank, emptyGraph]
  · simp [iterate_pagerank_ranks, iterate_pagerank, iterLoop, iterPass,
      emptyGraph, Graph.N]

/-- Claim C8 counterexample: invoked on the zero-page corpus,
`iterate_pagerank` returns an (empty) rank dict instead of failing with
an empty-graph error detected at the start. -/
theorem iterate_empty_graph_no_error :
    iterate_pagerank_ranks emptyGraph (17/20) 1 = some [] := by
  simp [iterate_pagerank_ranks, iterate_pagerank, iterLoop, iterPass,
    emptyGraph, Graph.N]

end PageRank
